import Mathlib

/-!
Verification development for the scikit-rf network-algebra core.

The repository sources available here contain only documentation notebooks and
packaging configuration; the engine itself (the `Network` aggregate and its
`connect` / `innerconnect` / `renormalize` / `se2gmm` / `gmm2se` operations) is
not among them.  Every operation below is therefore modelled from the
specification, as noted in each doc comment.

Scalars are taken in the computable field ℚ(√2)[i]: rationals extended by √2
(needed by the mixed-mode difference/sum basis, whose entries are ±1/√2) and by
the imaginary unit (S-parameters and reference impedances are complex).
Square roots that fall outside this field (used only by the renormalization
scale factors) are represented by a total function that is exact on perfect
squares of rationals and returns 0 elsewhere; this is documented at each use.
-/

/-- Elements a + b·√2 of the real quadratic field ℚ(√2). -/
@[ext] structure Qrt where
  a : ℚ
  b : ℚ
deriving DecidableEq

namespace Qrt

instance : Zero Qrt := ⟨⟨0, 0⟩⟩

instance : One Qrt := ⟨⟨1, 0⟩⟩

instance : Add Qrt := ⟨fun x y => ⟨x.a + y.a, x.b + y.b⟩⟩

instance : Neg Qrt := ⟨fun x => ⟨-x.a, -x.b⟩⟩

instance : Mul Qrt := ⟨fun x y => ⟨x.a * y.a + 2 * (x.b * y.b), x.a * y.b + x.b * y.a⟩⟩

@[simp] theorem zero_a : (0 : Qrt).a = 0 := rfl

@[simp] theorem zero_b : (0 : Qrt).b = 0 := rfl

@[simp] theorem one_a : (1 : Qrt).a = 1 := rfl

@[simp] theorem one_b : (1 : Qrt).b = 0 := rfl

@[simp] theorem add_a (x y : Qrt) : (x + y).a = x.a + y.a := rfl

@[simp] theorem add_b (x y : Qrt) : (x + y).b = x.b + y.b := rfl

@[simp] theorem neg_a (x : Qrt) : (-x).a = -x.a := rfl

@[simp] theorem neg_b (x : Qrt) : (-x).b = -x.b := rfl

@[simp] theorem mul_a (x y : Qrt) : (x * y).a = x.a * y.a + 2 * (x.b * y.b) := rfl

@[simp] theorem mul_b (x y : Qrt) : (x * y).b = x.a * y.b + x.b * y.a := rfl

instance commRing : CommRing Qrt := by
  refine
  { zero := 0
    one := 1
    add := (· + ·)
    neg := (-·)
    mul := (· * ·)
    nsmul := nsmulRec
    zsmul := zsmulRec
    npow := npowRec
    add_assoc := ?_
    zero_add := ?_
    add_zero := ?_
    add_comm := ?_
    neg_add_cancel := ?_
    left_distrib := ?_
    right_distrib := ?_
    zero_mul := ?_
    mul_zero := ?_
    mul_assoc := ?_
    one_mul := ?_
    mul_one := ?_
    mul_comm := ?_ } <;>
  intros <;>
  ext <;>
  simp <;>
  ring

@[simp] theorem sub_a (x y : Qrt) : (x - y).a = x.a - y.a := by
  rw [sub_eq_add_neg, add_a, neg_a, sub_eq_add_neg]

@[simp] theorem sub_b (x y : Qrt) : (x - y).b = x.b - y.b := by
  rw [sub_eq_add_neg, add_b, neg_b, sub_eq_add_neg]

/-- No rational has square 2 (irrationality of √2, transported to ℚ). -/
theorem rat_sq_ne_two (q : ℚ) : q * q ≠ 2 := by
  intro h
  have hr : ((q : ℝ)) ^ 2 = 2 := by
    rw [sq]
    exact_mod_cast congrArg (fun t : ℚ => (t : ℝ)) h
  have h2 : Real.sqrt 2 = |(q : ℝ)| := by
    rw [← hr, Real.sqrt_sq_eq_abs]
  have : Irrational (Real.sqrt 2) := irrational_sqrt_two
  rw [h2, ← Rat.cast_abs] at this
  exact this ⟨|q|, rfl⟩

theorem norm_ne_zero {x : Qrt} (hx : x ≠ 0) : x.a * x.a - 2 * (x.b * x.b) ≠ 0 := by
  intro h
  rcases eq_or_ne x.b 0 with hb | hb
  · apply hx
    have ha : x.a * x.a = 0 := by nlinarith
    ext
    · show x.a = 0
      exact mul_self_eq_zero.mp ha
    · show x.b = 0
      exact hb
  · apply rat_sq_ne_two (x.a / x.b)
    field_simp
    nlinarith [h]

instance : Inv Qrt :=
  ⟨fun x => ⟨x.a / (x.a * x.a - 2 * (x.b * x.b)), -x.b / (x.a * x.a - 2 * (x.b * x.b))⟩⟩

@[simp] theorem inv_a (x : Qrt) : (x⁻¹).a = x.a / (x.a * x.a - 2 * (x.b * x.b)) := rfl

@[simp] theorem inv_b (x : Qrt) : (x⁻¹).b = -x.b / (x.a * x.a - 2 * (x.b * x.b)) := rfl

instance field : Field Qrt where
  exists_pair_ne := ⟨0, 1, by decide⟩
  mul_inv_cancel := by
    intro x hx
    have h := norm_ne_zero hx
    ext <;> simp <;> field_simp <;> ring
  inv_zero := by ext <;> simp
  nnqsmul := _
  qsmul := _

/-- In the real field ℚ(√2) a sum of two squares vanishes only trivially
(proved through the evaluation embedding into ℝ). -/
theorem sq_add_sq_ne_zero {x y : Qrt} (h : ¬(x = 0 ∧ y = 0)) : x * x + y * y ≠ 0 := by
  intro heq
  have hker : ∀ t : Qrt, (t.a : ℝ) + t.b * Real.sqrt 2 = 0 → t = 0 := by
    intro t ht
    by_cases hb : t.b = 0
    · have ha' : (t.a : ℝ) = 0 := by simpa [hb] using ht
      have ha : t.a = 0 := by exact_mod_cast ha'
      ext
      · show t.a = 0
        exact ha
      · show t.b = 0
        exact hb
    · exfalso
      have hbR : (t.b : ℝ) ≠ 0 := by exact_mod_cast hb
      have hs : Real.sqrt 2 = ((-t.a / t.b : ℚ) : ℝ) := by
        push_cast
        field_simp
        linarith [ht]
      exact irrational_sqrt_two ⟨-t.a / t.b, hs.symm⟩
  have hsq : Real.sqrt 2 * Real.sqrt 2 = 2 := Real.mul_self_sqrt (by norm_num)
  have hmul : ∀ s t : Qrt, ((s * t).a : ℝ) + (s * t).b * Real.sqrt 2 =
      ((s.a : ℝ) + s.b * Real.sqrt 2) * ((t.a : ℝ) + t.b * Real.sqrt 2) := by
    intro s t
    simp only [mul_a, mul_b]
    push_cast
    linear_combination (-((s.b : ℝ) * (t.b : ℝ))) * hsq
  have h1 : ((x.a : ℝ) + x.b * Real.sqrt 2) * ((x.a : ℝ) + x.b * Real.sqrt 2) +
      ((y.a : ℝ) + y.b * Real.sqrt 2) * ((y.a : ℝ) + y.b * Real.sqrt 2) = 0 := by
    rw [← hmul, ← hmul]
    have h0 : ((x * x + y * y).a : ℝ) + (x * x + y * y).b * Real.sqrt 2 = 0 := by
      rw [heq]
      simp
    simp only [add_a, add_b, mul_a, mul_b] at h0 ⊢
    push_cast at h0 ⊢
    linear_combination h0
  have hx0 : (x.a : ℝ) + x.b * Real.sqrt 2 = 0 := by
    nlinarith [mul_self_nonneg ((x.a : ℝ) + x.b * Real.sqrt 2),
      mul_self_nonneg ((y.a : ℝ) + y.b * Real.sqrt 2)]
  have hy0 : (y.a : ℝ) + y.b * Real.sqrt 2 = 0 := by
    nlinarith [mul_self_nonneg ((x.a : ℝ) + x.b * Real.sqrt 2),
      mul_self_nonneg ((y.a : ℝ) + y.b * Real.sqrt 2)]
  exact h ⟨hker x hx0, hker y hy0⟩

end Qrt

/-- Elements re + im·i of the computable field ℚ(√2)[i]; the scalar type of all
S-parameters and reference impedances in this development. -/
@[ext] structure Kc where
  re : Qrt
  im : Qrt
deriving DecidableEq

namespace Kc

instance : Zero Kc := ⟨⟨0, 0⟩⟩

instance : One Kc := ⟨⟨1, 0⟩⟩

instance : Add Kc := ⟨fun x y => ⟨x.re + y.re, x.im + y.im⟩⟩

instance : Neg Kc := ⟨fun x => ⟨-x.re, -x.im⟩⟩

instance : Mul Kc := ⟨fun x y => ⟨x.re * y.re - x.im * y.im, x.re * y.im + x.im * y.re⟩⟩

@[simp] theorem zero_re : (0 : Kc).re = 0 := rfl

@[simp] theorem zero_im : (0 : Kc).im = 0 := rfl

@[simp] theorem one_re : (1 : Kc).re = 1 := rfl

@[simp] theorem one_im : (1 : Kc).im = 0 := rfl

@[simp] theorem add_re (x y : Kc) : (x + y).re = x.re + y.re := rfl

@[simp] theorem add_im (x y : Kc) : (x + y).im = x.im + y.im := rfl

@[simp] theorem neg_re (x : Kc) : (-x).re = -x.re := rfl

@[simp] theorem neg_im (x : Kc) : (-x).im = -x.im := rfl

@[simp] theorem mul_re (x y : Kc) : (x * y).re = x.re * y.re - x.im * y.im := rfl

@[simp] theorem mul_im (x y : Kc) : (x * y).im = x.re * y.im + x.im * y.re := rfl

instance commRing : CommRing Kc := by
  refine
  { zero := 0
    one := 1
    add := (· + ·)
    neg := (-·)
    mul := (· * ·)
    nsmul := nsmulRec
    zsmul := zsmulRec
    npow := npowRec
    add_assoc := ?_
    zero_add := ?_
    add_zero := ?_
    add_comm := ?_
    neg_add_cancel := ?_
    left_distrib := ?_
    right_distrib := ?_
    zero_mul := ?_
    mul_zero := ?_
    mul_assoc := ?_
    one_mul := ?_
    mul_one := ?_
    mul_comm := ?_ } <;>
  intros <;>
  ext <;>
  simp <;>
  ring

instance : Inv Kc :=
  ⟨fun z => ⟨z.re / (z.re * z.re + z.im * z.im), -z.im / (z.re * z.re + z.im * z.im)⟩⟩

@[simp] theorem inv_re (z : Kc) : (z⁻¹).re = z.re / (z.re * z.re + z.im * z.im) := rfl

@[simp] theorem inv_im (z : Kc) : (z⁻¹).im = -z.im / (z.re * z.re + z.im * z.im) := rfl

theorem normSq_ne_zero {z : Kc} (hz : z ≠ 0) : z.re * z.re + z.im * z.im ≠ 0 := by
  apply Qrt.sq_add_sq_ne_zero
  intro hc
  apply hz
  ext <;> simp [hc.1, hc.2]

instance field : Field Kc where
  exists_pair_ne := ⟨0, 1, by decide⟩
  mul_inv_cancel := by
    intro z hz
    have h := normSq_ne_zero hz
    refine Kc.ext ?_ ?_ <;> simp <;> field_simp <;> ring
  inv_zero := by
    refine Kc.ext ?_ ?_ <;> simp
  nnqsmul := _
  qsmul := _

/-- Complex conjugation on ℚ(√2)[i]. -/
def conj (z : Kc) : Kc := ⟨z.re, -z.im⟩

@[simp] theorem conj_re (z : Kc) : (conj z).re = z.re := rfl

@[simp] theorem conj_im (z : Kc) : (conj z).im = -z.im := rfl

end Kc

/-- Embedding of the rationals into the scalar field. -/
def kofq (q : ℚ) : Kc := ⟨⟨q, 0⟩, 0⟩

/-- The imaginary unit of the scalar field. -/
def iK : Kc := ⟨0, 1⟩

/-- The constant 1/√2 of the scalar field (equal to √2/2), the magnitude of
every nonzero entry of the mixed-mode difference/sum basis matrix. -/
def invrt2 : Kc := ⟨⟨0, 1/2⟩, 0⟩

/-- Total rational square root: the exact nonnegative square root when the
argument is the square of a rational, and 0 otherwise.  Used only inside the
renormalization scale factors, which the spec does not pin down beyond the
wave-definition formulas; theorems relying on it are stated so that the two
sides degrade identically outside the exactly-representable range. -/
def rsqrtQ (q : ℚ) : ℚ :=
  if 0 ≤ q.num ∧ Nat.sqrt q.num.natAbs * Nat.sqrt q.num.natAbs = q.num.natAbs ∧
      Nat.sqrt q.den * Nat.sqrt q.den = q.den then
    (Nat.sqrt q.num.natAbs : ℚ) / (Nat.sqrt q.den : ℚ)
  else 0

/-- Total square root on ℚ(√2): exact on squares of rationals, 0 otherwise. -/
def qsqrt (x : Qrt) : Qrt := if x.b = 0 then ⟨rsqrtQ x.a, 0⟩ else 0

/-- The scalar √(Re z) appearing in the power-wave normalization. -/
def sqrtRe (z : Kc) : Kc := ⟨qsqrt z.re, 0⟩

/-- Total complex square root: defined (via `qsqrt`) for arguments on the
nonnegative real axis, 0 otherwise.  Appears only in the traveling-wave
normalization, which the spec declares valid only for real impedances. -/
def csqrtK (z : Kc) : Kc := if z.im = 0 then ⟨qsqrt z.re, 0⟩ else 0

/-- The modulus |z|, exact when it is rational, 0 otherwise; appears only in
the pseudo-wave normalization. -/
def modK (z : Kc) : Kc := ⟨qsqrt (z.re * z.re + z.im * z.im), 0⟩

/-- Modelled from the spec: per-port mode metadata of the mixed-mode transform
(§3 data model); the engine source is absent from the available tree. -/
inductive PortMode where
  | single : PortMode
  | differential : PortMode
  | common : PortMode
deriving DecidableEq

/-- Modelled from the spec: the error taxonomy of §7 restricted to the
conditions exercised by the network algebra (the engine source is absent from
the available tree).  `singularConnection` carries the offending frequency
index and value, as §4.2 requires. -/
inductive NetErr where
  | shapeMismatch : NetErr
  | impedanceMismatch : NetErr
  | invalidPortIndex : NetErr
  | singularConnection : ℕ → ℚ → NetErr
  | modeConversion : NetErr
deriving DecidableEq

/-- Modelled from the spec: the Network aggregate of §3 — frequency points,
S-tensor of shape [F,N,N], reference impedances z0 of shape [F,N] and per-port
mode tags.  The engine source is absent from the available tree; fields follow
the spec's data model. -/
@[ext] structure Network (F N : ℕ) where
  freq : Fin F → ℚ
  s : Fin F → Matrix (Fin N) (Fin N) Kc
  z0 : Fin F → Fin N → Kc
  mode : Fin N → PortMode

/-- The denominator of the spec's closed-form port-pair elimination. -/
def elimDenom {n : ℕ} (S : Matrix (Fin n) (Fin n) Kc) (p q : Fin n) : Kc :=
  1 - S p q * S q p

/-- Modelled from the spec: the closed-form port-pair elimination formula of
§4.2, reproduced verbatim —
S'[m,n] = S[m,n] + (S[m,p]·S[q,n]·(1 − S[q,p]) + S[m,q]·S[p,n]·(1 − S[p,q])) / (1 − S[p,q]·S[q,p]). -/
def elimEntry {nn : ℕ} (S : Matrix (Fin nn) (Fin nn) Kc) (p q m n : Fin nn) : Kc :=
  S m n + (S m p * S q n * (1 - S q p) + S m q * S p n * (1 - S p q)) / (1 - S p q * S q p)

/-- The renumbering of §4.2: the i-th port kept after removing ports p < q,
with every index above a removed port shifted down. -/
def skipTwo (p q i : ℕ) : ℕ :=
  if i < p then i else if i + 1 < q then i + 1 else i + 2

theorem skipTwo_lt {n p q i : ℕ} (hpq : p < q) (hq : q < n) (hi : i < n - 2) :
    skipTwo p q i < n := by
  unfold skipTwo
  split_ifs <;> omega

/-- The kept-port renumbering as a map `Fin (n-2) → Fin n`. -/
def skipEmb {n : ℕ} (p q : ℕ) (hpq : p < q) (hq : q < n) (i : Fin (n - 2)) : Fin n :=
  ⟨skipTwo p q i.1, skipTwo_lt hpq hq i.2⟩

/-- The reduced S-matrix: the elimination formula evaluated at the kept ports
(rows/columns p and q dropped). -/
def innerRaw {n : ℕ} (S : Matrix (Fin n) (Fin n) Kc) (p q : ℕ)
    (hpq : p < q) (hq : q < n) : Matrix (Fin (n - 2)) (Fin (n - 2)) Kc :=
  fun i j =>
    elimEntry S ⟨p, lt_trans hpq hq⟩ ⟨q, hq⟩ (skipEmb p q hpq hq i) (skipEmb p q hpq hq j)

/-- The elimination denominator evaluated at a self-loop of ports k, l of one
network (ports ordered as min/max, as `innerconnect` does). -/
def loopDenom {F N : ℕ} (net : Network F N) (k l : Fin N) (f : Fin F) : Kc :=
  elimDenom (net.s f) ⟨min k.1 l.1, lt_of_le_of_lt (min_le_left _ _) k.isLt⟩
    ⟨max k.1 l.1, max_lt k.isLt l.isLt⟩

/-- Modelled from the spec: `innerconnect` (§4.2) — join two ports of one
network by the closed-form elimination, reducing the port count by 2.  The
engine source is absent from the available tree.  Validation is eager (§7):
duplicate port indices fail, and a vanishing elimination denominator at any
frequency fails with `singularConnection` carrying the first offending
frequency index and value rather than producing non-values. -/
def innerconnect {F N : ℕ} (net : Network F N) (k l : Fin N) :
    Except NetErr (Network F (N - 2)) :=
  if hkl : k = l then .error .invalidPortIndex
  else
    have hk := k.isLt
    have hl := l.isLt
    have hne : k.1 ≠ l.1 := fun hv => hkl (Fin.ext hv)
    have hpq : min k.1 l.1 < max k.1 l.1 := by omega
    have hq : max k.1 l.1 < N := by omega
    match Fin.find (fun f => loopDenom net k l f = 0) with
    | some f => .error (.singularConnection f.1 (net.freq f))
    | none => .ok
        { freq := net.freq
          s := fun f => innerRaw (net.s f) (min k.1 l.1) (max k.1 l.1) hpq hq
          z0 := fun f i => net.z0 f (skipEmb (min k.1 l.1) (max k.1 l.1) hpq hq i)
          mode := fun i => net.mode (skipEmb (min k.1 l.1) (max k.1 l.1) hpq hq i) }

/-- The block-diagonal embedding of §4.2: two networks side by side with zero
off-diagonal blocks (no connection yet). -/
def blockS {na nb : ℕ} (X : Matrix (Fin na) (Fin na) Kc) (Y : Matrix (Fin nb) (Fin nb) Kc) :
    Matrix (Fin (na + nb)) (Fin (na + nb)) Kc :=
  fun i j =>
    if hi : i.1 < na then
      if hj : j.1 < na then X ⟨i.1, hi⟩ ⟨j.1, hj⟩ else 0
    else
      if hj : j.1 < na then 0
      else Y ⟨i.1 - na, by have := i.isLt; omega⟩ ⟨j.1 - na, by have := j.isLt; omega⟩

/-- The combined network over the block-diagonal embedding: A's ports first in
order, then B's. -/
def blockNetwork {F na nb : ℕ} (A : Network F na) (B : Network F nb) :
    Network F (na + nb) :=
  { freq := A.freq
    s := fun f => blockS (A.s f) (B.s f)
    z0 := fun f i =>
      if hi : i.1 < na then A.z0 f ⟨i.1, hi⟩ else B.z0 f ⟨i.1 - na, by have := i.isLt; omega⟩
    mode := fun i =>
      if hi : i.1 < na then A.mode ⟨i.1, hi⟩ else B.mode ⟨i.1 - na, by have := i.isLt; omega⟩ }

/-- Modelled from the spec: `connect` (§4.2) — eager validation (identical
frequency grid, equal reference impedance at the joined ports at every
frequency, §7 fail-fast), then the block-diagonal embedding followed by the
closed-form port-pair elimination at portA and nA + portB.  The engine source
is absent from the available tree.  No implicit renormalization is performed:
a reference-impedance mismatch is a validation failure. -/
def connect {F na nb : ℕ} (A : Network F na) (pa : Fin na) (B : Network F nb) (pb : Fin nb) :
    Except NetErr (Network F (na + nb - 2)) :=
  if A.freq = B.freq then
    if ∀ f, A.z0 f pa = B.z0 f pb then
      innerconnect (blockNetwork A B)
        ⟨pa.1, by have := pa.isLt; omega⟩ ⟨na + pb.1, by have := pb.isLt; omega⟩
    else .error .impedanceMismatch
  else .error .shapeMismatch

/-- Row half of the mixed-mode similarity M·S: rows 0..p−1 take the scaled
difference of the port pair (2i, 2i+1), rows p..2p−1 the scaled sum of the
pair (2(i−p), 2(i−p)+1), remaining rows are untouched.  The scale 1/√2 makes
M orthogonal. -/
def rowT {N : ℕ} (p : ℕ) (h : 2 * p ≤ N) (S : Matrix (Fin N) (Fin N) Kc) :
    Matrix (Fin N) (Fin N) Kc :=
  fun i j =>
    if h1 : i.1 < p then
      (S ⟨2 * i.1, by omega⟩ j - S ⟨2 * i.1 + 1, by omega⟩ j) * invrt2
    else if h2 : i.1 < 2 * p then
      (S ⟨2 * (i.1 - p), by omega⟩ j + S ⟨2 * (i.1 - p) + 1, by omega⟩ j) * invrt2
    else S i j

/-- Column half of the mixed-mode similarity X·M⁻¹ (M orthogonal, M⁻¹ = Mᵀ). -/
def colT {N : ℕ} (p : ℕ) (h : 2 * p ≤ N) (S : Matrix (Fin N) (Fin N) Kc) :
    Matrix (Fin N) (Fin N) Kc :=
  fun i j =>
    if h1 : j.1 < p then
      (S i ⟨2 * j.1, by omega⟩ - S i ⟨2 * j.1 + 1, by omega⟩) * invrt2
    else if h2 : j.1 < 2 * p then
      (S i ⟨2 * (j.1 - p), by omega⟩ + S i ⟨2 * (j.1 - p) + 1, by omega⟩) * invrt2
    else S i j

/-- Row half of the inverse mixed-mode similarity M⁻¹·X = Mᵀ·X. -/
def rowTInv {N : ℕ} (p : ℕ) (h : 2 * p ≤ N) (X : Matrix (Fin N) (Fin N) Kc) :
    Matrix (Fin N) (Fin N) Kc :=
  fun i j =>
    if h1 : i.1 < 2 * p then
      if i.1 % 2 = 0 then
        (X ⟨i.1 / 2, by omega⟩ j + X ⟨p + i.1 / 2, by omega⟩ j) * invrt2
      else
        (X ⟨p + i.1 / 2, by omega⟩ j - X ⟨i.1 / 2, by omega⟩ j) * invrt2
    else X i j

/-- Column half of the inverse mixed-mode similarity X·M. -/
def colTInv {N : ℕ} (p : ℕ) (h : 2 * p ≤ N) (X : Matrix (Fin N) (Fin N) Kc) :
    Matrix (Fin N) (Fin N) Kc :=
  fun i j =>
    if h1 : j.1 < 2 * p then
      if j.1 % 2 = 0 then
        (X i ⟨j.1 / 2, by omega⟩ + X i ⟨p + j.1 / 2, by omega⟩) * invrt2
      else
        (X i ⟨p + j.1 / 2, by omega⟩ - X i ⟨j.1 / 2, by omega⟩) * invrt2
    else X i j

/-- Modelled from the spec: `se2gmm` (§4.4) — the engine source is absent from
the available tree.  Preconditions are validated eagerly: `2p ≤ N`, and the
first `2p` ports must still be single-ended (re-conversion is a
`modeConversion` failure).  The first `2p` ports, paired consecutively in
ascending order (0&1, 2&3, …), are transformed by the fixed orthogonal
difference/sum basis M via the similarity `M · S · M⁻¹` (realized as the row
and column halves above); the mixed-mode ports are ordered with the p
differential ports first, then the p common ports, as in the source's
notebooks; ports at index ≥ 2p are untouched.  The spec does not assign new
reference impedances to converted ports, so z0 is carried over unchanged. -/
def se2gmm {F N : ℕ} (net : Network F N) (p : ℕ) : Except NetErr (Network F N) :=
  if h : 2 * p ≤ N then
    if ∀ i : Fin N, i.1 < 2 * p → net.mode i = .single then
      .ok
        { freq := net.freq
          s := fun f => colT p h (rowT p h (net.s f))
          z0 := net.z0
          mode := fun i =>
            if i.1 < p then .differential else if i.1 < 2 * p then .common else net.mode i }
    else .error .modeConversion
  else .error .modeConversion

/-- Modelled from the spec: `gmm2se` (§4.4) — the exact algebraic inverse
transform `M⁻¹ · S_mixed · M`, with eager validation that the first p ports are
differential and the next p common (tag mismatch is a `modeConversion`
failure); converted ports return to single-ended. -/
def gmm2se {F N : ℕ} (net : Network F N) (p : ℕ) : Except NetErr (Network F N) :=
  if h : 2 * p ≤ N then
    if (∀ i : Fin N, i.1 < p → net.mode i = .differential) ∧
        (∀ i : Fin N, p ≤ i.1 → i.1 < 2 * p → net.mode i = .common) then
      .ok
        { freq := net.freq
          s := fun f => rowTInv p h (colTInv p h (net.s f))
          z0 := net.z0
          mode := fun i => if i.1 < 2 * p then .single else net.mode i }
    else .error .modeConversion
  else .error .modeConversion

/-- Modelled from the spec: the three wave definitions of §4.3. -/
inductive SDef where
  | traveling : SDef
  | pseudo : SDef
  | power : SDef
deriving DecidableEq

/-- The reference-impedance term entering the backward-wave side: the
conjugate under the power-wave definition (Kurokawa), the impedance itself
otherwise (§4.3). -/
def condConj : SDef → Kc → Kc
  | .power, z => Kc.conj z
  | .pseudo, z => z
  | .traveling, z => z

/-- The per-port wave-amplitude normalization scale of each wave definition:
1/(2√z0) for traveling waves (complex square root), |z0|/(2·z0·√(Re z0)) for
pseudo waves, 1/(2·√(Re z0)) for power waves.  Square roots are represented by
the total functions above (exact on rational perfect squares, 0 otherwise). -/
def waveScale : SDef → Kc → Kc
  | .traveling, z => 1 / (2 * csqrtK z)
  | .pseudo, z => modK z / (2 * z * sqrtRe z)
  | .power, z => 1 / (2 * sqrtRe z)

/-- Total matrix inverse over the scalar field: adjugate over determinant,
0 when singular. -/
def matInverse {n : ℕ} (A : Matrix (Fin n) (Fin n) Kc) : Matrix (Fin n) (Fin n) Kc :=
  if A.det = 0 then 0 else A.det⁻¹ • A.adjugate

/-- Modelled from the spec: the renormalization of one frequency slice (§4.3).
The impedance matrix Z is recovered from S and the old z0 (with the conjugate
entering under the power definition), the new S is the bilinear image
(Z − Ḡ')·(Z + G')⁻¹, and each off-diagonal entry carries the ratio of the
per-port normalization scales of the wave definition (the diagonal ratio is
identically 1 and is written as such, since the scales are square roots
represented exactly only on rational perfect squares). -/
def renormZ {n : ℕ} (d : SDef) (S : Matrix (Fin n) (Fin n) Kc) (z0 : Fin n → Kc) :
    Matrix (Fin n) (Fin n) Kc :=
  matInverse (1 - S) * (S * Matrix.diagonal z0 + Matrix.diagonal (fun i => condConj d (z0 i)))

/-- The bilinear image (Z − Ḡ')·(Z + G')⁻¹ of the recovered impedance matrix
under the new reference impedances. -/
def renormW {n : ℕ} (d : SDef) (S : Matrix (Fin n) (Fin n) Kc) (z0 z0' : Fin n → Kc) :
    Matrix (Fin n) (Fin n) Kc :=
  (renormZ d S z0 - Matrix.diagonal (fun i => condConj d (z0' i))) *
    matInverse (renormZ d S z0 + Matrix.diagonal z0')

def renormS {n : ℕ} (d : SDef) (S : Matrix (Fin n) (Fin n) Kc) (z0 z0' : Fin n → Kc) :
    Matrix (Fin n) (Fin n) Kc :=
  fun i j =>
    if i = j then renormW d S z0 z0' i j
    else
      (waveScale d (z0' i) / waveScale d (z0 i)) *
        (waveScale d (z0 j) / waveScale d (z0' j)) * renormW d S z0 z0' i j

/-- Modelled from the spec: `renormalize(net, new_z0, s_def)` (§4.3) — the
engine source is absent from the available tree.  Produces the network with
the recomputed S-tensor and the new reference impedances. -/
def renormalizeSDef {F N : ℕ} (net : Network F N) (z0' : Fin F → Fin N → Kc) (d : SDef) :
    Network F N :=
  { freq := net.freq
    s := fun f => renormS d (net.s f) (net.z0 f) (z0' f)
    z0 := z0'
    mode := net.mode }

/-- Modelled from the spec: `renormalize` called without a wave definition —
the power-wave definition is the default (as the source notebooks state:
renormalize(1j) is the same as renormalize(1j, s_def='power')). -/
def renormalize {F N : ℕ} (net : Network F N) (z0' : Fin F → Fin N → Kc) : Network F N :=
  renormalizeSDef net z0' .power

/-- A 1-port ideal short (S = −1) referenced to 50 Ω at a single frequency. -/
def exShort : Network 1 1 :=
  { freq := fun _ => 1
    s := fun _ => Matrix.of fun _ _ => -1
    z0 := fun _ _ => kofq 50
    mode := fun _ => .single }

/-- A symmetric 2-port with S11 = S22 = 0 and S12 = S21 = 1/2, referenced to
50 Ω at a single frequency. -/
def exTwo : Network 1 2 :=
  { freq := fun _ => 1
    s := fun _ => Matrix.of fun i j => if i = j then 0 else kofq (1 / 2)
    z0 := fun _ _ => kofq 50
    mode := fun _ => .single }

/-- A 1-port perfectly matched load (S = 0) referenced to 50 Ω. -/
def exLoad : Network 1 1 :=
  { freq := fun _ => 1
    s := fun _ => Matrix.of fun _ _ => 0
    z0 := fun _ _ => kofq 50
    mode := fun _ => .single }

/-- A 1-port matched load referenced to 25 Ω (used to exhibit the
impedance-mismatch validation failure). -/
def exLoad25 : Network 1 1 :=
  { freq := fun _ => 1
    s := fun _ => Matrix.of fun _ _ => 0
    z0 := fun _ _ => kofq 25
    mode := fun _ => .single }

/-- A 2-port whose self-loop elimination denominator vanishes
(S12 = S21 = 1, so 1 − S12·S21 = 0). -/
def exSingular : Network 1 2 :=
  { freq := fun _ => 7
    s := fun _ => Matrix.of fun i j => if i = j then 0 else 1
    z0 := fun _ _ => kofq 50
    mode := fun _ => .single }


theorem blockS_offdiag₁ {na nb : ℕ} (X : Matrix (Fin na) (Fin na) Kc)
    (Y : Matrix (Fin nb) (Fin nb) Kc) (i j : Fin (na + nb))
    (hi : i.1 < na) (hj : ¬ j.1 < na) : blockS X Y i j = 0 := by
  simp [blockS, hi, hj]

theorem blockS_offdiag₂ {na nb : ℕ} (X : Matrix (Fin na) (Fin na) Kc)
    (Y : Matrix (Fin nb) (Fin nb) Kc) (i j : Fin (na + nb))
    (hi : ¬ i.1 < na) (hj : j.1 < na) : blockS X Y i j = 0 := by
  simp [blockS, hi, hj]

theorem elimDenom_blockS {na nb : ℕ} (X : Matrix (Fin na) (Fin na) Kc)
    (Y : Matrix (Fin nb) (Fin nb) Kc) (p q : Fin (na + nb))
    (hp : p.1 < na) (hq : ¬ q.1 < na) : elimDenom (blockS X Y) p q = 1 := by
  rw [elimDenom, blockS_offdiag₁ X Y p q hp hq, zero_mul, sub_zero]

/-- C1.  For networks sharing a Frequency, `connect` demands equal reference
impedances at the joined ports at every frequency point: it fails with the
impedance-mismatch validation error when they differ anywhere, and any
successful result certifies that they were equal everywhere (no implicit
renormalization of either operand). -/
theorem connect_requires_equal_z0 {F na nb : ℕ} (A : Network F na) (pa : Fin na)
    (B : Network F nb) (pb : Fin nb) (hfreq : A.freq = B.freq) :
    (¬ (∀ f, A.z0 f pa = B.z0 f pb) →
      connect A pa B pb = .error .impedanceMismatch) ∧
    (∀ C, connect A pa B pb = .ok C → ∀ f, A.z0 f pa = B.z0 f pb) := by
  constructor
  · intro hz
    rw [connect, if_pos hfreq, if_neg hz]
  · intro C hC
    by_cases hz : ∀ f, A.z0 f pa = B.z0 f pb
    · exact hz
    · rw [connect, if_pos hfreq, if_neg hz] at hC
      exact absurd hC (by simp)

/-- Witness for C1 at concrete data: a 2-port at 50 Ω connected to a load
referenced to 25 Ω is rejected with the impedance-mismatch error. -/
theorem connect_requires_equal_z0_spot :
    connect exTwo 0 exLoad25 0 = .error .impedanceMismatch :=
  (connect_requires_equal_z0 exTwo 0 exLoad25 0 (by decide)).1 (by decide)

/-- C9.  Whenever the elimination denominator 1 − S[p,q]·S[q,p] vanishes at
some frequency, `innerconnect` fails with `singularConnection` carrying the
exact index and frequency value of the first offending point; and a successful
result certifies a nonvanishing denominator at every frequency, so no
non-values are ever substituted silently. -/
theorem innerconnect_singular_detection {F N : ℕ} (net : Network F N) (k l : Fin N)
    (hkl : k ≠ l) :
    ((∃ f, loopDenom net k l f = 0) →
      ∃ f0, innerconnect net k l = .error (.singularConnection f0.1 (net.freq f0)) ∧
        loopDenom net k l f0 = 0 ∧ ∀ f', f' < f0 → loopDenom net k l f' ≠ 0) ∧
    (∀ C, innerconnect net k l = .ok C → ∀ f, loopDenom net k l f ≠ 0) := by
  unfold innerconnect
  rw [dif_neg hkl]
  split
  next f heq =>
    refine ⟨fun _ => ⟨f, rfl, ?_, ?_⟩, ?_⟩
    · exact Fin.find_spec _ (Option.mem_def.mpr heq)
    · intro f' hf'
      exact Fin.find_min (Option.mem_def.mpr heq) hf'
    · intro C hC
      exact absurd hC (by simp)
  next heq =>
    refine ⟨?_, ?_⟩
    · rintro ⟨f, hf⟩
      exact absurd hf (Fin.find_eq_none_iff.mp heq f)
    · intro C _ f
      exact Fin.find_eq_none_iff.mp heq f

/-- Witness for C9 at concrete data: the 2-port with S12·S21 = 1 has a
vanishing self-loop denominator at its only frequency point and is rejected
with the singular-connection error carrying that point. -/
theorem innerconnect_singular_detection_spot :
    ∃ f0 : Fin 1, innerconnect exSingular 0 1 =
        .error (.singularConnection f0.1 (exSingular.freq f0)) ∧
      loopDenom exSingular 0 1 f0 = 0 ∧
      ∀ f', f' < f0 → loopDenom exSingular 0 1 f' ≠ 0 :=
  (innerconnect_singular_detection exSingular 0 1 (by decide)).1
    ⟨0, by simp [loopDenom, elimDenom, exSingular, Matrix.of_apply, Fin.ext_iff]⟩

/-- C10.  `renormalize` without a wave definition is definitionally
renormalization under the power-wave definition: the power default. -/
theorem renormalize_default_power {F N : ℕ} (net : Network F N)
    (z0' : Fin F → Fin N → Kc) :
    renormalize net z0' = renormalizeSDef net z0' .power := rfl

theorem finVal_mk {n a : ℕ} (h : a < n) : (⟨a, h⟩ : Fin n).val = a := rfl

theorem joinLt {na nb : ℕ} (pa : Fin na) (pb : Fin nb) : pa.1 < na + pb.1 :=
  lt_of_lt_of_le pa.isLt (Nat.le_add_right na pb.1)

/-- The index, among the na + nb block ports, of the i-th port kept by
`connect` (A's ports except portA first, in order, then B's except portB). -/
def connSkip {na nb : ℕ} (pa : Fin na) (pb : Fin nb) (i : Fin (na + nb - 2)) :
    Fin (na + nb) :=
  skipEmb pa.1 (na + pb.1) (joinLt pa pb) (Nat.add_lt_add_left pb.isLt na) i

/-- The network `connect` produces on success: the closed-form elimination of
ports portA and nA + portB of the block-diagonal embedding, with rows/columns
of the two joined ports dropped. -/
def connectPayload {F na nb : ℕ} (A : Network F na) (pa : Fin na)
    (B : Network F nb) (pb : Fin nb) : Network F (na + nb - 2) :=
  { freq := A.freq
    s := fun f => innerRaw (blockS (A.s f) (B.s f)) pa.1 (na + pb.1)
      (joinLt pa pb) (Nat.add_lt_add_left pb.isLt na)
    z0 := fun f i => (blockNetwork A B).z0 f (connSkip pa pb i)
    mode := fun i => (blockNetwork A B).mode (connSkip pa pb i) }

theorem skipEmb_eq {n : ℕ} (p q p' q' : ℕ) (hp : p = p') (hqe : q = q')
    (hpq : p < q) (hq : q < n) (hpq' : p' < q') (hq' : q' < n) (i : Fin (n - 2)) :
    skipEmb p q hpq hq i = skipEmb p' q' hpq' hq' i := by
  subst hp
  subst hqe
  rfl

theorem innerRaw_eq {n : ℕ} (S : Matrix (Fin n) (Fin n) Kc) (p q p' q' : ℕ)
    (hp : p = p') (hqe : q = q') (hpq : p < q) (hq : q < n) (hpq' : p' < q') (hq' : q' < n) :
    innerRaw S p q hpq hq = innerRaw S p' q' hpq' hq' := by
  subst hp
  subst hqe
  rfl

theorem connect_ok {F na nb : ℕ} (A : Network F na) (pa : Fin na)
    (B : Network F nb) (pb : Fin nb) (hfreq : A.freq = B.freq)
    (hz : ∀ f, A.z0 f pa = B.z0 f pb) :
    connect A pa B pb = .ok (connectPayload A pa B pb) := by
  have hmin : min pa.1 (na + pb.1) = pa.1 := min_eq_left (le_of_lt (joinLt pa pb))
  have hmax : max pa.1 (na + pb.1) = na + pb.1 := max_eq_right (le_of_lt (joinLt pa pb))
  unfold connect
  rw [if_pos hfreq, if_pos hz]
  unfold innerconnect
  split
  next heq =>
    exfalso
    have := congrArg Fin.val heq
    simp only [finVal_mk] at this
    omega
  next hne =>
    split
    next f heq =>
      exfalso
      have hspec := Fin.find_spec _ (Option.mem_def.mpr heq)
      rw [loopDenom] at hspec
      simp only [finVal_mk, hmin, hmax] at hspec
      rw [show (blockNetwork A B).s f = blockS (A.s f) (B.s f) from rfl] at hspec
      rw [elimDenom_blockS (A.s f) (B.s f) _ _ (by simp [finVal_mk, pa.isLt]) (by simp [finVal_mk])] at hspec
      · exact one_ne_zero hspec
    next hnone =>
      refine congrArg Except.ok (Network.ext ?_ ?_ ?_ ?_)
      · rfl
      · funext f
        exact innerRaw_eq (blockS (A.s f) (B.s f)) _ _ _ _ hmin hmax _ _
          (joinLt pa pb) (Nat.add_lt_add_left pb.isLt na)
      · funext f i
        exact congrArg ((blockNetwork A B).z0 f)
          (skipEmb_eq _ _ _ _ hmin hmax _ _ (joinLt pa pb) (Nat.add_lt_add_left pb.isLt na) i)
      · funext i
        exact congrArg (blockNetwork A B).mode
          (skipEmb_eq _ _ _ _ hmin hmax _ _ (joinLt pa pb) (Nat.add_lt_add_left pb.isLt na) i)


/-- The index, among the original n ports, of the i-th port kept after
`connect` drops the joined port k and the single load port. -/
def dropIdx {na : ℕ} (k : Fin na) (i : Fin (na - 1)) : Fin na :=
  ⟨skipTwo k.1 na i.1, by
    have hk := k.isLt
    have hi := i.isLt
    unfold skipTwo
    split_ifs <;> omega⟩

theorem blockS_left {na nb : ℕ} (X : Matrix (Fin na) (Fin na) Kc)
    (Y : Matrix (Fin nb) (Fin nb) Kc) (i j : Fin (na + nb))
    (hi : i.1 < na) (hj : j.1 < na) : blockS X Y i j = X ⟨i.1, hi⟩ ⟨j.1, hj⟩ := by
  simp [blockS, hi, hj]

theorem elimEntry_blockS_left {na nb : ℕ} (X : Matrix (Fin na) (Fin na) Kc)
    (Y : Matrix (Fin nb) (Fin nb) Kc) (p q m n : Fin (na + nb))
    (hp : p.1 < na) (hq : ¬ q.1 < na) (hm : m.1 < na) (hn : n.1 < na) :
    elimEntry (blockS X Y) p q m n = X ⟨m.1, hm⟩ ⟨n.1, hn⟩ := by
  rw [elimEntry, blockS_offdiag₂ X Y q n hq hn, blockS_offdiag₁ X Y m q hm hq,
    blockS_offdiag₁ X Y p q hp hq, blockS_offdiag₂ X Y q p hq hp, blockS_left X Y m n hm hn]
  simp

/-- C5.  With matching Frequency and matching reference impedance at the
joined ports, `connect` succeeds with a network of exactly nA + nB − 2 ports;
every entry is the closed-form elimination formula applied to the
block-diagonal embedding at the kept-port indices (A's remaining ports first
in original order, then B's, as `connSkip` enumerates), and z0/mode data are
carried from the embedded operands along the same renumbering. -/
theorem connect_block_elimination {F na nb : ℕ} (A : Network F na) (pa : Fin na)
    (B : Network F nb) (pb : Fin nb) (hfreq : A.freq = B.freq)
    (hz : ∀ f, A.z0 f pa = B.z0 f pb) :
    ∃ C : Network F (na + nb - 2), connect A pa B pb = .ok C ∧
      (∀ f i j, C.s f i j =
        elimEntry (blockS (A.s f) (B.s f))
          ⟨pa.1, lt_of_lt_of_le pa.isLt (Nat.le_add_right na nb)⟩
          ⟨na + pb.1, Nat.add_lt_add_left pb.isLt na⟩
          (connSkip pa pb i) (connSkip pa pb j)) ∧
      (∀ f i, C.z0 f i = (blockNetwork A B).z0 f (connSkip pa pb i)) ∧
      (∀ i, C.mode i = (blockNetwork A B).mode (connSkip pa pb i)) :=
  ⟨connectPayload A pa B pb, connect_ok A pa B pb hfreq hz,
    fun _ _ _ => rfl, fun _ _ => rfl, fun _ => rfl⟩

/-- Witness for C5 at concrete data: the 50 Ω 2-port joined at its port 0 to
the matched 50 Ω load. -/
theorem connect_block_elimination_spot :
    ∃ C : Network 1 (2 + 1 - 2), connect exTwo 0 exLoad 0 = .ok C ∧
      (∀ f i j, C.s f i j =
        elimEntry (blockS (exTwo.s f) (exLoad.s f))
          ⟨(0 : Fin 2).1, lt_of_lt_of_le (0 : Fin 2).isLt (Nat.le_add_right 2 1)⟩
          ⟨2 + (0 : Fin 1).1, Nat.add_lt_add_left (0 : Fin 1).isLt 2⟩
          (connSkip 0 0 i) (connSkip 0 0 j)) ∧
      (∀ f i, C.z0 f i = (blockNetwork exTwo exLoad).z0 f (connSkip 0 0 i)) ∧
      (∀ i, C.mode i = (blockNetwork exTwo exLoad).mode (connSkip 0 0 i)) :=
  connect_block_elimination exTwo 0 exLoad 0 (by decide) (by decide)

/-- C6.  Connecting any port k of a network to a perfectly matched 1-port load
(S = 0, matching z0) removes that port and leaves every remaining S-entry
numerically equal to the corresponding entry of the original network.  (Under
the spec's elimination formula the load's own reflection coefficient never
enters the remaining block, so the matched-load hypothesis is recorded but not
needed by the proof.) -/
theorem connect_matched_load_identity {F na : ℕ} (A : Network F na) (k : Fin na)
    (ld : Network F 1) (hfreq : A.freq = ld.freq) (_hS : ∀ f, ld.s f 0 0 = 0)
    (hz : ∀ f, A.z0 f k = ld.z0 f 0) :
    ∃ C : Network F (na + 1 - 2), connect A k ld 0 = .ok C ∧
      ∀ f (i j : Fin (na + 1 - 2)), C.s f i j = A.s f (dropIdx k i) (dropIdx k j) := by
  refine ⟨connectPayload A k ld 0, connect_ok A k ld 0 hfreq hz, ?_⟩
  intro f i j
  exact elimEntry_blockS_left (A.s f) (ld.s f) _ _ _ _ k.isLt
    (show ¬ na + 0 < na by omega)
    (show skipTwo k.1 (na + 0) i.1 < na by
      have hk := k.isLt
      have hi := i.isLt
      unfold skipTwo
      split_ifs <;> omega)
    (show skipTwo k.1 (na + 0) j.1 < na by
      have hk := k.isLt
      have hj := j.isLt
      unfold skipTwo
      split_ifs <;> omega)

/-- Witness for C6 at concrete data: terminating port 1 of the 50 Ω 2-port in
the matched 50 Ω load keeps its remaining S-entry unchanged. -/
theorem connect_matched_load_identity_spot :
    ∃ C : Network 1 (2 + 1 - 2), connect exTwo 1 exLoad 0 = .ok C ∧
      ∀ f (i j : Fin (2 + 1 - 2)), C.s f i j = exTwo.s f (dropIdx 1 i) (dropIdx 1 j) :=
  connect_matched_load_identity exTwo 1 exLoad (by decide) (by decide) (by decide)

theorem two_invrt2_sq : invrt2 * invrt2 + invrt2 * invrt2 = 1 := by
  refine Kc.ext ?_ ?_ <;> refine Qrt.ext ?_ ?_ <;> simp [invrt2] <;> norm_num

theorem rowT_apply_lo {N p : ℕ} (h : 2 * p ≤ N) (S : Matrix (Fin N) (Fin N) Kc)
    (i j : Fin N) (hi : i.1 < p) :
    rowT p h S i j = (S ⟨2 * i.1, by omega⟩ j - S ⟨2 * i.1 + 1, by omega⟩ j) * invrt2 := by
  unfold rowT
  rw [dif_pos hi]

theorem rowT_apply_hi {N p : ℕ} (h : 2 * p ≤ N) (S : Matrix (Fin N) (Fin N) Kc)
    (i j : Fin N) (hi1 : ¬ i.1 < p) (hi2 : i.1 < 2 * p) :
    rowT p h S i j =
      (S ⟨2 * (i.1 - p), by omega⟩ j + S ⟨2 * (i.1 - p) + 1, by omega⟩ j) * invrt2 := by
  unfold rowT
  rw [dif_neg hi1, dif_pos hi2]

theorem rowT_apply_out {N p : ℕ} (h : 2 * p ≤ N) (S : Matrix (Fin N) (Fin N) Kc)
    (i j : Fin N) (hi : ¬ i.1 < 2 * p) : rowT p h S i j = S i j := by
  unfold rowT
  rw [dif_neg (by omega), dif_neg hi]

theorem colT_apply_lo {N p : ℕ} (h : 2 * p ≤ N) (S : Matrix (Fin N) (Fin N) Kc)
    (i j : Fin N) (hj : j.1 < p) :
    colT p h S i j = (S i ⟨2 * j.1, by omega⟩ - S i ⟨2 * j.1 + 1, by omega⟩) * invrt2 := by
  unfold colT
  rw [dif_pos hj]

theorem colT_apply_hi {N p : ℕ} (h : 2 * p ≤ N) (S : Matrix (Fin N) (Fin N) Kc)
    (i j : Fin N) (hj1 : ¬ j.1 < p) (hj2 : j.1 < 2 * p) :
    colT p h S i j =
      (S i ⟨2 * (j.1 - p), by omega⟩ + S i ⟨2 * (j.1 - p) + 1, by omega⟩) * invrt2 := by
  unfold colT
  rw [dif_neg hj1, dif_pos hj2]

theorem colT_apply_out {N p : ℕ} (h : 2 * p ≤ N) (S : Matrix (Fin N) (Fin N) Kc)
    (i j : Fin N) (hj : ¬ j.1 < 2 * p) : colT p h S i j = S i j := by
  unfold colT
  rw [dif_neg (by omega), dif_neg hj]

theorem rowTInv_rowT {N p : ℕ} (h : 2 * p ≤ N) (S : Matrix (Fin N) (Fin N) Kc) :
    rowTInv p h (rowT p h S) = S := by
  funext i j
  unfold rowTInv
  by_cases h1 : i.1 < 2 * p
  · rw [dif_pos h1]
    by_cases hpar : i.1 % 2 = 0
    · rw [if_pos hpar]
      rw [rowT_apply_lo h S ⟨i.1 / 2, by omega⟩ j (by
        show i.1 / 2 < p
        omega)]
      rw [rowT_apply_hi h S ⟨p + i.1 / 2, by omega⟩ j (by
        show ¬ p + i.1 / 2 < p
        omega) (by
        show p + i.1 / 2 < 2 * p
        omega)]
      have e2 : p + i.1 / 2 - p = i.1 / 2 := by omega
      simp only [e2]
      have ha : (⟨2 * (i.1 / 2), by omega⟩ : Fin N) = i := Fin.ext (by
        show 2 * (i.1 / 2) = i.1
        omega)
      simp only [ha]
      linear_combination (S i j) * two_invrt2_sq
    · rw [if_neg hpar]
      rw [rowT_apply_lo h S ⟨i.1 / 2, by omega⟩ j (by
        show i.1 / 2 < p
        omega)]
      rw [rowT_apply_hi h S ⟨p + i.1 / 2, by omega⟩ j (by
        show ¬ p + i.1 / 2 < p
        omega) (by
        show p + i.1 / 2 < 2 * p
        omega)]
      have e2 : p + i.1 / 2 - p = i.1 / 2 := by omega
      simp only [e2]
      have ha : (⟨2 * (i.1 / 2) + 1, by omega⟩ : Fin N) = i := Fin.ext (by
        show 2 * (i.1 / 2) + 1 = i.1
        omega)
      simp only [ha]
      linear_combination (S i j) * two_invrt2_sq
  · rw [dif_neg h1]
    exact rowT_apply_out h S i j h1

theorem colTInv_colT {N p : ℕ} (h : 2 * p ≤ N) (S : Matrix (Fin N) (Fin N) Kc) :
    colTInv p h (colT p h S) = S := by
  funext i j
  unfold colTInv
  by_cases h1 : j.1 < 2 * p
  · rw [dif_pos h1]
    by_cases hpar : j.1 % 2 = 0
    · rw [if_pos hpar]
      rw [colT_apply_lo h S i ⟨j.1 / 2, by omega⟩ (by
        show j.1 / 2 < p
        omega)]
      rw [colT_apply_hi h S i ⟨p + j.1 / 2, by omega⟩ (by
        show ¬ p + j.1 / 2 < p
        omega) (by
        show p + j.1 / 2 < 2 * p
        omega)]
      have e2 : p + j.1 / 2 - p = j.1 / 2 := by omega
      simp only [e2]
      have ha : (⟨2 * (j.1 / 2), by omega⟩ : Fin N) = j := Fin.ext (by
        show 2 * (j.1 / 2) = j.1
        omega)
      simp only [ha]
      linear_combination (S i j) * two_invrt2_sq
    · rw [if_neg hpar]
      rw [colT_apply_lo h S i ⟨j.1 / 2, by omega⟩ (by
        show j.1 / 2 < p
        omega)]
      rw [colT_apply_hi h S i ⟨p + j.1 / 2, by omega⟩ (by
        show ¬ p + j.1 / 2 < p
        omega) (by
        show p + j.1 / 2 < 2 * p
        omega)]
      have e2 : p + j.1 / 2 - p = j.1 / 2 := by omega
      simp only [e2]
      have ha : (⟨2 * (j.1 / 2) + 1, by omega⟩ : Fin N) = j := Fin.ext (by
        show 2 * (j.1 / 2) + 1 = j.1
        omega)
      simp only [ha]
      linear_combination (S i j) * two_invrt2_sq
  · rw [dif_neg h1]
    exact colT_apply_out h S i j h1

/-- C8.  For any valid pair count p on a network whose first 2p ports are
single-ended, gmm2se inverts se2gmm exactly: the round trip returns the
original network (the similarity by the orthogonal difference/sum basis is
inverted exactly, entry by entry). -/
theorem gmm2se_se2gmm_roundtrip {F N : ℕ} (net : Network F N) (p : ℕ)
    (h2p : 2 * p ≤ N) (hm : ∀ i : Fin N, i.1 < 2 * p → net.mode i = .single) :
    (se2gmm net p).bind (fun m => gmm2se m p) = .ok net := by
  rw [se2gmm, dif_pos h2p, if_pos hm]
  show gmm2se _ p = _
  rw [gmm2se, dif_pos h2p, if_pos (by
    constructor
    · intro i hi
      show (if i.1 < p then PortMode.differential else
        if i.1 < 2 * p then PortMode.common else net.mode i) = PortMode.differential
      rw [if_pos hi]
    · intro i hpi hi2
      show (if i.1 < p then PortMode.differential else
        if i.1 < 2 * p then PortMode.common else net.mode i) = PortMode.common
      rw [if_neg (by omega), if_pos hi2])]
  refine congrArg Except.ok (Network.ext rfl ?_ rfl ?_)
  · funext f
    show rowTInv p h2p (colTInv p h2p (colT p h2p (rowT p h2p (net.s f)))) = net.s f
    rw [colTInv_colT, rowTInv_rowT]
  · funext i
    by_cases hi : i.1 < 2 * p
    · show (if i.1 < 2 * p then PortMode.single else _) = net.mode i
      rw [if_pos hi, (hm i hi).symm]
    · show (if i.1 < 2 * p then PortMode.single else
        if i.1 < p then PortMode.differential else
        if i.1 < 2 * p then PortMode.common else net.mode i) = net.mode i
      rw [if_neg hi, if_neg (by omega), if_neg hi]

/-- Witness for C8 at concrete data: the 50 Ω 2-port survives the se2gmm /
gmm2se round trip at p = 1 unchanged. -/
theorem gmm2se_se2gmm_roundtrip_spot :
    (se2gmm exTwo 1).bind (fun m => gmm2se m 1) = .ok exTwo :=
  gmm2se_se2gmm_roundtrip exTwo 1 (by decide) (by decide)

/-- C7.  se2gmm converts exactly the first 2p ports, taken as consecutive
pairs in ascending order: on success the p differential ports come first, then
the p common ports, ports at index ≥ 2p keep their tags and their S-entries
among themselves, the dd-block entries combine exactly the pair
(2i, 2i+1) × (2j, 2j+1) of the original S-matrix, and 2p > N fails with the
mode-conversion error. -/
theorem se2gmm_pairs_modes_error {F N : ℕ} (net : Network F N) (p : ℕ) :
    (∀ h2p : 2 * p ≤ N, (∀ i : Fin N, i.1 < 2 * p → net.mode i = .single) →
      ∃ M, se2gmm net p = .ok M ∧
        (∀ i : Fin N, i.1 < p → M.mode i = .differential) ∧
        (∀ i : Fin N, p ≤ i.1 → i.1 < 2 * p → M.mode i = .common) ∧
        (∀ i : Fin N, 2 * p ≤ i.1 → M.mode i = net.mode i) ∧
        (∀ f (i j : Fin N) (hi : i.1 < p) (hj : j.1 < p),
          M.s f i j =
            (net.s f ⟨2 * i.1, by omega⟩ ⟨2 * j.1, by omega⟩
              - net.s f ⟨2 * i.1, by omega⟩ ⟨2 * j.1 + 1, by omega⟩
              - net.s f ⟨2 * i.1 + 1, by omega⟩ ⟨2 * j.1, by omega⟩
              + net.s f ⟨2 * i.1 + 1, by omega⟩ ⟨2 * j.1 + 1, by omega⟩)
              * (invrt2 * invrt2)) ∧
        (∀ f (i j : Fin N), 2 * p ≤ i.1 → 2 * p ≤ j.1 → M.s f i j = net.s f i j)) ∧
    (N < 2 * p → se2gmm net p = .error .modeConversion) := by
  constructor
  · intro h2p hm
    refine ⟨_, by rw [se2gmm, dif_pos h2p, if_pos hm], ?_, ?_, ?_, ?_, ?_⟩
    · intro i hi
      show (if i.1 < p then PortMode.differential else _) = PortMode.differential
      rw [if_pos hi]
    · intro i hpi hi2
      show (if i.1 < p then PortMode.differential else
        if i.1 < 2 * p then PortMode.common else net.mode i) = PortMode.common
      rw [if_neg (by omega), if_pos hi2]
    · intro i hi
      show (if i.1 < p then PortMode.differential else
        if i.1 < 2 * p then PortMode.common else net.mode i) = net.mode i
      rw [if_neg (by omega), if_neg (by omega)]
    · intro f i j hi hj
      show colT p h2p (rowT p h2p (net.s f)) i j = _
      rw [colT_apply_lo _ _ _ _ hj,
        rowT_apply_lo _ _ _ _ hi, rowT_apply_lo _ _ _ _ hi]
      ring
    · intro f i j hi hj
      show colT p h2p (rowT p h2p (net.s f)) i j = _
      rw [colT_apply_out _ _ _ _ (by omega), rowT_apply_out _ _ _ _ (by omega)]
  · intro hlt
    rw [se2gmm, dif_neg (by omega)]

/-- Witness for C7 at concrete data: on the single-ended 50 Ω 2-port, p = 1
succeeds and p = 2 is rejected with the mode-conversion error. -/
theorem se2gmm_pairs_modes_error_spot :
    (∃ M, se2gmm exTwo 1 = .ok M) ∧ se2gmm exTwo 2 = .error .modeConversion :=
  ⟨((se2gmm_pairs_modes_error exTwo 1).1 (by decide) (by decide)).elim
      (fun M hM => ⟨M, hM.1⟩),
    (se2gmm_pairs_modes_error exTwo 2).2 (by decide)⟩

theorem abs_rat_eq (q : ℚ) : |q| = (q.num.natAbs : ℚ) / (q.den : ℚ) := by
  have h1 : ((q.num.natAbs : ℕ) : ℚ) = |(q.num : ℚ)| := by
    rw [Int.cast_natAbs, Int.cast_abs]
  have h2 : |(q.den : ℚ)| = (q.den : ℚ) := abs_of_pos (by exact_mod_cast q.pos)
  rw [h1, ← h2, ← abs_div, Rat.num_div_den]

theorem rsqrtQ_mul_self (q : ℚ) : rsqrtQ (q * q) = |q| := by
  unfold rsqrtQ
  rw [Rat.mul_self_num, Rat.mul_self_den]
  have hnum : (q.num * q.num).natAbs = q.num.natAbs * q.num.natAbs := Int.natAbs_mul q.num q.num
  rw [hnum]
  rw [show Nat.sqrt (q.num.natAbs * q.num.natAbs) = q.num.natAbs from by
    rw [← sq]
    exact Nat.sqrt_eq' _]
  rw [show Nat.sqrt (q.den * q.den) = q.den from by
    rw [← sq]
    exact Nat.sqrt_eq' _]
  rw [if_pos ⟨mul_self_nonneg q.num, rfl, rfl⟩]
  exact (abs_rat_eq q).symm

theorem rsqrtQ_self_sq {q : ℚ} (h : rsqrtQ q ≠ 0) : rsqrtQ q * rsqrtQ q = q := by
  unfold rsqrtQ at h ⊢
  by_cases hc : 0 ≤ q.num ∧ Nat.sqrt q.num.natAbs * Nat.sqrt q.num.natAbs = q.num.natAbs ∧
      Nat.sqrt q.den * Nat.sqrt q.den = q.den
  · rw [if_pos hc]
    obtain ⟨h0, h1, h2⟩ := hc
    have hden : ((q.den : ℚ)) ≠ 0 := by exact_mod_cast q.den_ne_zero
    have hsden : ((Nat.sqrt q.den : ℚ)) ≠ 0 := by
      intro hz
      apply hden
      have : (Nat.sqrt q.den : ℚ) * (Nat.sqrt q.den : ℚ) = (q.den : ℚ) := by
        exact_mod_cast congrArg (fun n : ℕ => (n : ℚ)) h2
      rw [hz, zero_mul] at this
      exact this.symm
    rw [div_mul_div_comm]
    have hn : ((Nat.sqrt q.num.natAbs : ℚ)) * (Nat.sqrt q.num.natAbs : ℚ) = (q.num : ℚ) := by
      have : ((Nat.sqrt q.num.natAbs * Nat.sqrt q.num.natAbs : ℕ) : ℚ) = ((q.num.natAbs : ℕ) : ℚ) :=
        congrArg (fun n : ℕ => (n : ℚ)) h1
      push_cast at this
      rw [this, (Int.cast_natAbs : ((q.num.natAbs : ℕ) : ℚ) = _)]
      exact_mod_cast abs_of_nonneg h0
    have hd : ((Nat.sqrt q.den : ℚ)) * (Nat.sqrt q.den : ℚ) = (q.den : ℚ) := by
      exact_mod_cast congrArg (fun n : ℕ => (n : ℚ)) h2
    rw [hn, hd]
    exact Rat.num_div_den q
  · rw [if_neg hc] at h
    exact absurd rfl h

theorem rsqrtQ_nonneg (q : ℚ) : 0 ≤ rsqrtQ q := by
  unfold rsqrtQ
  split
  · positivity
  · exact le_refl 0

theorem Kc.conj_eq_self {z : Kc} (h : z.im = 0) : Kc.conj z = z :=
  Kc.ext rfl (by rw [Kc.conj_im, h, neg_zero])

theorem condConj_real (d : SDef) {z : Kc} (hz : z.im = 0) : condConj d z = z := by
  cases d
  · rfl
  · rfl
  · exact Kc.conj_eq_self hz

theorem two_ne_zero_kc : (2 : Kc) ≠ 0 := by
  rw [← one_add_one_eq_two]
  intro h
  have h2 : (1 : ℚ) + 1 = 0 := by
    have := congrArg (fun z : Kc => z.re.a) h
    simpa using this
  norm_num at h2

theorem waveScale_traveling_real {z : Kc} (hz : z.im = 0) :
    waveScale .traveling z = waveScale .power z := by
  show 1 / (2 * csqrtK z) = 1 / (2 * sqrtRe z)
  rw [csqrtK, if_pos hz]
  rfl

theorem waveScale_pseudo_real {z : Kc} (hz : z.im = 0) :
    waveScale .pseudo z = waveScale .power z := by
  show modK z / (2 * z * sqrtRe z) = 1 / (2 * sqrtRe z)
  by_cases hs : qsqrt z.re = 0
  · have h0 : sqrtRe z = 0 := Kc.ext hs rfl
    rw [h0, mul_zero, mul_zero, div_zero, div_zero]
  · have hb : z.re.b = 0 := by
      by_contra hb
      exact hs (by simp [qsqrt, hb])
    have hsq : qsqrt z.re = ⟨rsqrtQ z.re.a, 0⟩ := by simp [qsqrt, hb]
    have hr : rsqrtQ z.re.a ≠ 0 := by
      intro h0
      apply hs
      rw [hsq, h0]
      rfl
    have ha : rsqrtQ z.re.a * rsqrtQ z.re.a = z.re.a := rsqrtQ_self_sq hr
    have hm : modK z = z := by
      refine Kc.ext ?_ ?_
      · show qsqrt (z.re * z.re + z.im * z.im) = z.re
        rw [hz, mul_zero, add_zero]
        have hrr : z.re * z.re = ⟨z.re.a * z.re.a, 0⟩ := by
          refine Qrt.ext ?_ ?_ <;> simp [hb]
        rw [hrr, qsqrt, if_pos rfl]
        refine Qrt.ext ?_ ?_
        · show rsqrtQ (z.re.a * z.re.a) = z.re.a
          rw [rsqrtQ_mul_self]
          rw [← ha, abs_mul_self]
        · exact hb.symm
      · exact hz.symm
    rw [hm]
    have hzne : z ≠ 0 := by
      intro h0
      apply hr
      have hza : z.re.a = 0 := by
        rw [h0]
        rfl
      rw [hza] at ha ⊢
      exact mul_self_eq_zero.mp ha
    have hsne : sqrtRe z ≠ 0 := by
      intro h0
      apply hs
      have := congrArg Kc.re h0
      simpa [sqrtRe] using this
    rw [div_eq_div_iff (mul_ne_zero (mul_ne_zero two_ne_zero_kc hzne) hsne)
      (mul_ne_zero two_ne_zero_kc hsne)]
    ring

theorem renormS_eq_of {n : ℕ} (d d' : SDef) (S : Matrix (Fin n) (Fin n) Kc)
    (z0 z0' : Fin n → Kc)
    (hc : ∀ i, condConj d (z0 i) = condConj d' (z0 i))
    (hc' : ∀ i, condConj d (z0' i) = condConj d' (z0' i))
    (hw : ∀ i, waveScale d (z0 i) = waveScale d' (z0 i))
    (hw' : ∀ i, waveScale d (z0' i) = waveScale d' (z0' i)) :
    renormS d S z0 z0' = renormS d' S z0 z0' := by
  have hZ : renormZ d S z0 = renormZ d' S z0 := by
    unfold renormZ
    rw [funext hc]
  have hW : renormW d S z0 z0' = renormW d' S z0 z0' := by
    unfold renormW
    rw [hZ, funext hc']
  funext i j
  unfold renormS
  rw [hW]
  simp only [hw, hw']

/-- C4.  On any network whose old and new reference impedances are real at
every frequency and port, renormalization under the power, pseudo and
traveling wave definitions produces the same S-tensor: the conjugate entering
the power definition is the identity on real impedances, and the three
per-port normalization scales coincide there. -/
theorem renormalize_real_defs_agree {F N : ℕ} (net : Network F N)
    (z0' : Fin F → Fin N → Kc)
    (hold : ∀ f i, (net.z0 f i).im = 0) (hnew : ∀ f i, (z0' f i).im = 0) :
    (renormalizeSDef net z0' .pseudo).s = (renormalizeSDef net z0' .power).s ∧
    (renormalizeSDef net z0' .traveling).s = (renormalizeSDef net z0' .power).s := by
  constructor
  · funext f
    exact renormS_eq_of .pseudo .power (net.s f) (net.z0 f) (z0' f)
      (fun i => (condConj_real .pseudo (hold f i)).trans (condConj_real .power (hold f i)).symm)
      (fun i => (condConj_real .pseudo (hnew f i)).trans (condConj_real .power (hnew f i)).symm)
      (fun i => waveScale_pseudo_real (hold f i))
      (fun i => waveScale_pseudo_real (hnew f i))
  · funext f
    exact renormS_eq_of .traveling .power (net.s f) (net.z0 f) (z0' f)
      (fun i => (condConj_real .traveling (hold f i)).trans (condConj_real .power (hold f i)).symm)
      (fun i => (condConj_real .traveling (hnew f i)).trans (condConj_real .power (hnew f i)).symm)
      (fun i => waveScale_traveling_real (hold f i))
      (fun i => waveScale_traveling_real (hnew f i))

/-- Witness for C4 at concrete data: renormalizing the 50 Ω short to 100 Ω. -/
theorem renormalize_real_defs_agree_spot :
    (renormalizeSDef exShort (fun _ _ => kofq 100) .pseudo).s =
      (renormalizeSDef exShort (fun _ _ => kofq 100) .power).s ∧
    (renormalizeSDef exShort (fun _ _ => kofq 100) .traveling).s =
      (renormalizeSDef exShort (fun _ _ => kofq 100) .power).s :=
  renormalize_real_defs_agree exShort (fun _ _ => kofq 100) (by decide) (by decide)

theorem iK_ne_zero : iK ≠ 0 := by
  intro h
  have h1 : (1 : ℚ) = 0 := by
    have := congrArg (fun z : Kc => z.im.a) h
    simpa [iK] using this
  norm_num at h1

theorem conj_iK : Kc.conj iK = -iK := by
  refine Kc.ext ?_ ?_
  · show (0 : Qrt) = -0
    rw [neg_zero]
  · rfl

theorem matInverse_fin_one (A : Matrix (Fin 1) (Fin 1) Kc) (h : A 0 0 ≠ 0) :
    matInverse A 0 0 = (A 0 0)⁻¹ := by
  unfold matInverse
  rw [show A.det = A 0 0 from Matrix.det_fin_one A, if_neg h, Matrix.smul_apply,
    Matrix.adjugate_fin_one, Matrix.one_apply_eq, smul_eq_mul, mul_one]

/-- C3.  A 1-port ideal short (S = −1 at every frequency, real reference
impedance, so Z_load = 0) renormalized to the purely imaginary reference
impedance i under the power-wave definition has S = +1 at every frequency:
the conjugate in Γ = (Z − z0*)/(Z + z0) maps the short to the open point. -/
theorem renormalize_power_short_to_imag {F : ℕ} (net : Network F 1)
    (hz : ∀ f, (net.z0 f 0).im = 0) (hS : ∀ f, net.s f 0 0 = -1) :
    ∀ f, (renormalizeSDef net (fun _ _ => iK) .power).s f 0 0 = 1 := by
  intro f
  show renormS .power (net.s f) (net.z0 f) (fun _ => iK) 0 0 = 1
  unfold renormS
  rw [if_pos rfl]
  have hZ0 : renormZ .power (net.s f) (net.z0 f) = 0 := by
    unfold renormZ
    have hz2 : net.s f * Matrix.diagonal (net.z0 f) +
        Matrix.diagonal (fun i => condConj .power (net.z0 f i)) = 0 := by
      refine Matrix.ext fun i j => ?_
      have hi : i = 0 := Subsingleton.elim i 0
      have hj : j = 0 := Subsingleton.elim j 0
      subst hi
      subst hj
      rw [Matrix.add_apply, Matrix.mul_apply, Fin.sum_univ_one, Matrix.diagonal_apply_eq,
        Matrix.diagonal_apply_eq, hS f, Matrix.zero_apply, condConj_real .power (hz f)]
      ring
    rw [hz2, mul_zero]
  unfold renormW
  rw [hZ0, zero_sub, zero_add]
  rw [Matrix.mul_apply, Fin.sum_univ_one, Matrix.neg_apply, Matrix.diagonal_apply_eq]
  rw [matInverse_fin_one _ (by
    rw [Matrix.diagonal_apply_eq]
    exact iK_ne_zero)]
  rw [Matrix.diagonal_apply_eq]
  show -(Kc.conj iK) * iK⁻¹ = 1
  rw [conj_iK, neg_neg]
  exact mul_inv_cancel₀ iK_ne_zero

/-- Witness for C3 at concrete data: the 50 Ω short becomes the open point +1
when renormalized to i under the power definition. -/
theorem renormalize_power_short_to_imag_spot :
    (renormalizeSDef exShort (fun _ _ => iK) .power).s 0 0 0 = 1 :=
  renormalize_power_short_to_imag exShort (by decide) (by decide) 0
